import Mathlib

/-!
Verification of the go-dl downloader: a shallow embedding of the release
catalog model, file selection, the download loop, the archive extraction
pass and the terminal state machine, with theorems checking the spec's
claims against it.  Every definition is translated from the Go sources
(main.go and tui.go); machine-level effects (HTTP body reads, file writes,
tar entries) are modelled as explicit event lists, and each read/write
outcome is an explicit value.
-/

namespace GoDl

/-- The `File` record of main.go (one downloadable artifact). -/
structure File where
  filename : String
  os : String
  arch : String
  version : String
  sha256 : String
  size : Nat
  kind : String
deriving DecidableEq

/-- The zero value `File{}` of Go, used as a sentinel in tui.go. -/
def File.zero : File :=
  { filename := "", os := "", arch := "", version := "", sha256 := "", size := 0, kind := "" }

/-- The `Release` record of main.go. -/
structure Release where
  version : String
  stable : Bool
  files : List File
deriving DecidableEq

/-- One predicate over files, as passed to `Files.Filter` (a `spec` in the Go code). -/
abbrev FileSpec := File → Bool

/-- `isSpecified`: the conjunction loop inside `Files.Filter`
(`isSpecified = isSpecified && spec(v)` over all specs, starting from `true`). -/
def isSpecified (specs : List FileSpec) (v : File) : Bool :=
  specs.foldl (fun acc spec => acc && spec v) true

/-- `Files.Filter` of main.go: walks the file list in order and appends every
file satisfying all predicates to the (initially empty) result. -/
def filesFilter (files : List File) (specs : List FileSpec) : List File :=
  files.foldl (fun acc v => if isSpecified specs v then acc ++ [v] else acc) []

lemma isSpecified_foldl (specs : List FileSpec) (v : File) (b : Bool) :
    specs.foldl (fun acc spec => acc && spec v) b = (b && specs.all (fun s => s v)) := by
  induction specs generalizing b with
  | nil => simp
  | cons s rest ih => simp [List.foldl_cons, ih, Bool.and_assoc]

lemma isSpecified_eq_all (specs : List FileSpec) (v : File) :
    isSpecified specs v = specs.all (fun s => s v) := by
  simp [isSpecified, isSpecified_foldl]

lemma filesFilter_foldl (files : List File) (specs : List FileSpec) (acc : List File) :
    files.foldl (fun acc v => if isSpecified specs v then acc ++ [v] else acc) acc
      = acc ++ files.filter (fun v => isSpecified specs v) := by
  induction files generalizing acc with
  | nil => simp
  | cons f rest ih =>
    by_cases h : isSpecified specs f = true
    · simp [List.foldl_cons, h, ih, List.filter_cons]
    · simp only [List.foldl_cons, List.filter_cons, Bool.not_eq_true] at *
      simp [h, ih]

lemma filesFilter_eq_filter (files : List File) (specs : List FileSpec) :
    filesFilter files specs = files.filter (fun v => isSpecified specs v) := by
  simpa [filesFilter] using filesFilter_foldl files specs []

/-- C10 --
`Filter` returns a subsequence of its input: the matching elements in their
original relative order, each occurrence taken at most once; with an empty
predicate list (the vacuous conjunction) it returns the whole input in order. -/
theorem c10_filter_sublist (files : List File) (specs : List FileSpec) :
    (filesFilter files specs).Sublist files
      ∧ filesFilter files specs = files.filter (fun v => isSpecified specs v)
      ∧ filesFilter files [] = files := by
  refine ⟨?_, filesFilter_eq_filter files specs, ?_⟩
  · rw [filesFilter_eq_filter]
    exact List.filter_sublist files
  · rw [filesFilter_eq_filter]
    simp [isSpecified]

/-! ## File selection and the terminal state machine (tui.go) -/

/-- The two hardcoded selection predicates of `downloadCmd` in tui.go:
`f.Os == "linux"` and `f.Arch == "amd64"`. -/
def goSpecs : List FileSpec :=
  [fun f => f.os == "linux", fun f => f.arch == "amd64"]

/-- The selection loop of `downloadCmd`: `dlf` starts as the zero `File`;
for every release whose version equals the user's choice, the files are
filtered with `goSpecs` and, when the filtered list is nonempty, its first
element overwrites `dlf`. -/
def selectDlf (versions : List Release) (choice : String) : File :=
  versions.foldl
    (fun dlf v =>
      if choice = v.version then
        match filesFilter v.files goSpecs with
        | [] => dlf
        | f :: _ => f
      else dlf)
    File.zero

/-- The error message of `downloadCmd` when `dlf` is still the zero file. -/
def noMatchMsg : String := "did not found a matching file"

/-- The selection outcome of `downloadCmd`: the zero-file sentinel is turned
into the explicit "no matching file" error. -/
def downloadSelect (versions : List Release) (choice : String) : Except String File :=
  let dlf := selectDlf versions choice
  if dlf = File.zero then .error noMatchMsg else .ok dlf

/-- The message a command returns into the bubbletea loop (nil is `okM`). -/
inductive DlCmdMsg where
  | errM (e : String)
  | okM
deriving DecidableEq

/-- `downloadCmd` of tui.go as a whole: selection, temp-file creation and the
transfer, the two latter given as environment outcomes.  The second component
records whether the transfer (`repo.Download`) was started. -/
def downloadCmdModel (versions : List Release) (choice : String)
    (createTemp : Except String Unit) (dl : File → Option String) : DlCmdMsg × Bool :=
  match downloadSelect versions choice with
  | .error e => (.errM e, false)
  | .ok f =>
    match createTemp with
    | .error e => (.errM e, false)
    | .ok _ =>
      match dl f with
      | some e => (.errM e, true)
      | none => (.okM, true)

/-- The UI states of tui.go. -/
inductive UiState where
  | Choosing
  | Downloading
  | Extracting
  | Quitting
  | Completed
deriving DecidableEq

/-- The messages `model.Update` dispatches on (window/key/frame messages that
only touch the external widgets are omitted; ctrl+c is kept). -/
inductive TMsg where
  | statusMsg (s : UiState)
  | errMsg (e : String)
  | doneMsg
  | keyCtrlC
deriving DecidableEq

/-- The model fields of tui.go that the state machine touches: the status,
the recorded error, and whether `tea.Quit` has been requested. -/
structure TModel where
  status : UiState
  err : Option String
  quitRequested : Bool
deriving DecidableEq

/-- The initial model built in `main`. -/
def initModel : TModel :=
  { status := .Choosing, err := none, quitRequested := false }

/-- `model.Update` of tui.go, restricted to the state-machine messages:
`statusMsg` overwrites the status, `errMsg` records the error and returns
`tea.Quit`, `doneMsg` moves to `Completed`, ctrl+c moves to `Quitting`. -/
def update (m : TModel) : TMsg → TModel
  | .statusMsg s => { m with status := s }
  | .errMsg e => { m with err := some e, quitRequested := true }
  | .doneMsg => { m with status := .Completed }
  | .keyCtrlC => { m with status := .Quitting, quitRequested := true }

/-- Folding the update function over a delivered message list. -/
def runMsgs (m : TModel) (msgs : List TMsg) : TModel :=
  msgs.foldl update m

/-- A sample transfer error used in concrete evaluations. -/
def connResetMsg : String := "connection reset"

/-- A sample extraction error used in concrete evaluations. -/
def gzipErrMsg : String := "gzip: invalid header"

/-- A sample write error used in concrete evaluations. -/
def diskFullMsg : String := "disk full"

/-- The message list produced by the `tea.Sequence` issued on enter in
`model.Update`: `statusCmd(Downloading)`, then `downloadCmd`'s message (nil —
i.e. nothing — on success, an `errMsg` on failure), then
`statusCmd(Extracting)`, then `extractCmd`'s message (`doneMsg` on success,
an `errMsg` on failure).  `tea.Sequence` runs all four commands in order
regardless of the messages the earlier ones produced; a `tea.Quit` returned
by `Update` is only a request and does not retract already queued messages. -/
def seqMsgs (dlRes : Option String) (exRes : Option String) : List TMsg :=
  [TMsg.statusMsg .Downloading]
    ++ (match dlRes with | some e => [TMsg.errMsg e] | none => [])
    ++ [TMsg.statusMsg .Extracting]
    ++ [match exRes with | some e => TMsg.errMsg e | none => TMsg.doneMsg]

lemma selectDlf_foldl (versions : List Release) (choice : String) (acc : File) :
    versions.foldl
        (fun dlf v =>
          if choice = v.version then
            match filesFilter v.files goSpecs with
            | [] => dlf
            | f :: _ => f
          else dlf) acc = acc
      ∨ ∃ v ∈ versions, choice = v.version
          ∧ (filesFilter v.files goSpecs).head?
              = some (versions.foldl
                  (fun dlf v =>
                    if choice = v.version then
                      match filesFilter v.files goSpecs with
                      | [] => dlf
                      | f :: _ => f
                    else dlf) acc) := by
  induction versions generalizing acc with
  | nil => left; rfl
  | cons v rest ih =>
    by_cases hv : choice = v.version
    · cases hfil : filesFilter v.files goSpecs with
      | nil =>
        rcases ih acc with h | ⟨w, hw, hcw, hhead⟩
        · left; simpa [List.foldl_cons, hv, hfil] using h
        · right
          exact ⟨w, List.mem_cons_of_mem _ hw, hcw, by simpa [List.foldl_cons, hv, hfil] using hhead⟩
      | cons f fs =>
        rcases ih f with h | ⟨w, hw, hcw, hhead⟩
        · right
          refine ⟨v, List.mem_cons_self _ _, hv, ?_⟩
          simp only [List.foldl_cons, if_pos hv, hfil]
          rw [h]
          rfl
        · right
          exact ⟨w, List.mem_cons_of_mem _ hw, hcw, by simpa [List.foldl_cons, hv, hfil] using hhead⟩
    · rcases ih acc with h | ⟨w, hw, hcw, hhead⟩
      · left; simpa [List.foldl_cons, hv] using h
      · right
        exact ⟨w, List.mem_cons_of_mem _ hw, hcw, by simpa [List.foldl_cons, hv] using hhead⟩

lemma selectDlf_of_no_match (versions : List Release) (choice : String)
    (h : ∀ v ∈ versions, v.version = choice → filesFilter v.files goSpecs = []) :
    selectDlf versions choice = File.zero := by
  unfold selectDlf
  rcases selectDlf_foldl versions choice File.zero with heq | ⟨v, hv, hcv, hhead⟩
  · exact heq
  · rw [h v hv hcv.symm] at hhead
    simp at hhead

lemma filter_head_first_match (p : File → Bool) :
    ∀ (files : List File) (f : File) (rest : List File),
      files.filter p = f :: rest →
      ∃ pre post, files = pre ++ f :: post ∧ (∀ g ∈ pre, p g = false) ∧ p f = true := by
  intro files
  induction files with
  | nil => intro f rest h; simp at h
  | cons a as ih =>
    intro f rest h
    by_cases ha : p a = true
    · rw [List.filter_cons_of_pos ha] at h
      obtain ⟨rfl, _⟩ : a = f ∧ as.filter p = rest := by
        constructor <;> simp_all
      exact ⟨[], as, rfl, by simp, ha⟩
    · rw [List.filter_cons_of_neg (by simpa using ha)] at h
      obtain ⟨pre, post, hsplit, hpre, hf⟩ := ih f rest h
      exact ⟨a :: pre, post, by simp [hsplit], by
        intro g hg
        rcases List.mem_cons.mp hg with rfl | hg
        · simpa using ha
        · exact hpre g hg, hf⟩

lemma isSpecified_goSpecs (f : File) :
    isSpecified goSpecs f = (f.os == "linux" && f.arch == "amd64") := by
  simp [isSpecified_eq_all, goSpecs, Bool.and_assoc]

/-- C1 --
File selection is deterministic and fails explicitly: if no file of any
release matching the chosen version satisfies both predicates, `downloadCmd`
yields exactly the "did not found a matching file" error without starting a
transfer; if selection succeeds, the selected file satisfies every predicate,
is never the zero-valued sentinel `File`, and is the first file in catalog
order of a matching release that satisfies all predicates; and an error
message drives the state machine into the error state. -/
theorem c1_selection_deterministic (versions : List Release) (choice : String)
    (createTemp : Except String Unit) (dl : File → Option String) :
    ((∀ v ∈ versions, v.version = choice → filesFilter v.files goSpecs = []) →
        downloadCmdModel versions choice createTemp dl = (.errM noMatchMsg, false))
    ∧ (∀ f, downloadSelect versions choice = .ok f →
        f.os = "linux" ∧ f.arch = "amd64" ∧ f ≠ File.zero
          ∧ ∃ v ∈ versions, v.version = choice
              ∧ ∃ pre post, v.files = pre ++ f :: post
                  ∧ (∀ g ∈ pre, isSpecified goSpecs g = false)
                  ∧ isSpecified goSpecs f = true)
    ∧ (∀ (m : TModel) (e : String), (update m (.errMsg e)).err = some e) := by
  refine ⟨?_, ?_, ?_⟩
  · intro h
    have hz := selectDlf_of_no_match versions choice h
    simp [downloadCmdModel, downloadSelect, hz]
  · intro f hf
    have hsel : selectDlf versions choice = f ∧ f ≠ File.zero := by
      by_cases hz : selectDlf versions choice = File.zero
      · simp [downloadSelect, hz] at hf
      · refine ⟨?_, ?_⟩
        · simpa [downloadSelect, hz] using hf
        · intro hcontra
          rw [← (by simpa [downloadSelect, hz] using hf : selectDlf versions choice = f)] at hcontra
          exact hz hcontra
    obtain ⟨hsel, hnz⟩ := hsel
    rcases selectDlf_foldl versions choice File.zero with heq | ⟨v, hv, hcv, hhead⟩
    · exact absurd (by rw [← hsel]; exact heq) hnz
    · rw [show versions.foldl _ File.zero = selectDlf versions choice from rfl, hsel] at hhead
      cases hfil : filesFilter v.files goSpecs with
      | nil => rw [hfil] at hhead; simp at hhead
      | cons g rest =>
        rw [hfil] at hhead
        have hg : g = f := by simpa using hhead
        subst hg
        rw [filesFilter_eq_filter] at hfil
        obtain ⟨pre, post, hsplit, hpre, hmatch⟩ := filter_head_first_match _ v.files g rest hfil
        have hos : g.os = "linux" ∧ g.arch = "amd64" := by
          have h2 := hmatch
          rw [isSpecified_goSpecs] at h2
          simpa only [Bool.and_eq_true, beq_iff_eq] using h2
        exact ⟨hos.1, hos.2, hnz, v, hv, hcv.symm, pre, post, hsplit, hpre, hmatch⟩
  · intro m e
    rfl

/-- Witness for C1: a catalog with one release holding only a windows file;
selection fails with the explicit error and no transfer is started. -/
theorem c1_selection_deterministic_witness :
    downloadCmdModel
        [{ version := "go1.20.2", stable := true,
           files := [{ filename := "go1.20.2.windows-amd64.msi", os := "windows",
                       arch := "amd64", version := "go1.20.2", sha256 := "", size := 5,
                       kind := "installer" }] }]
        "go1.20.2" (.ok ()) (fun _ => none)
      = (.errM noMatchMsg, false) :=
  (c1_selection_deterministic _ _ _ _).1 (by decide)

/-- C3 (code evaluated at the failing input) --
After a failed transfer (the download command posts an error message), the
queued `statusMsg Extracting` of the unconditional `tea.Sequence` still runs:
the machine records the error and requests quit, yet the status still becomes
`Extracting` (and the extract command still runs, here also failing). -/
theorem c3_failing_eval :
    (runMsgs initModel ((seqMsgs (some connResetMsg) (some gzipErrMsg)).take 2)).err
        = some connResetMsg
      ∧ (runMsgs initModel ((seqMsgs (some connResetMsg) (some gzipErrMsg)).take 2)).quitRequested
        = true
      ∧ (runMsgs initModel (seqMsgs (some connResetMsg) (some gzipErrMsg))).status
        = .Extracting
      ∧ (runMsgs initModel (seqMsgs (some connResetMsg) (some gzipErrMsg))).err
        ≠ none := by
  refine ⟨rfl, rfl, rfl, ?_⟩
  decide

/-! ## The download loop (`GoRepository.Download` in main.go)

The HTTP response body is modelled as a list of read events, each carrying
the bytes returned by one `resp.Body.Read(buf)` call together with its error
value (none, `io.EOF`, or another error); the destination file is modelled
as a list of write responses, one per `outFile.Write` call (`ok` is a full
write with nil error — the `io.Writer` contract — and `fail` is a short
write of `nw` bytes with an error).  Progress emissions are recorded as the
running `downloaded` counters; the emitted fraction is `downloaded / total`.
-/

/-- The error value of one body read: nil, `io.EOF`, or another error. -/
inductive RErr where
  | eof
  | oth (msg : String)
deriving DecidableEq

/-- One `resp.Body.Read(buf)` call: the bytes read and the error returned. -/
structure ReadEv where
  data : List Nat
  rerr : Option RErr
deriving DecidableEq

/-- One `outFile.Write` response: full success, or `nw` bytes plus an error. -/
inductive WResp where
  | ok
  | fail (nw : Nat) (msg : String)
deriving DecidableEq

/-- How the download ended. -/
inductive DlOutcome where
  | done
  | zeroLen
  | wErr (msg : String)
  | rErr (msg : String)
  | fuel
deriving DecidableEq

/-- Result of a download run: the bytes written to the destination, the
emitted running `downloaded` counters, and the outcome. -/
structure DlResult where
  dest : List Nat
  prog : List Nat
  out : DlOutcome
deriving DecidableEq

/-- The buffer size of the download loop: `buf := make([]byte, 32*1024)`. -/
def bufSize : Nat := 32 * 1024

/-- The read/write loop of `GoRepository.Download`: read a chunk; if bytes
arrived, write them, add the written count to `downloaded`, emit progress,
and abort on a write error; then abort on a non-EOF read error or stop
cleanly on EOF. -/
def dlLoop : List ReadEv → List WResp → Nat → DlResult
  | [], _, _ => ⟨[], [], .fuel⟩
  | ev :: rest, ws, downloaded =>
    if ev.data.length > 0 then
      match ws with
      | [] => ⟨[], [], .fuel⟩
      | w :: ws' =>
        let nw := match w with | .ok => ev.data.length | .fail k _ => k
        let written := ev.data.take nw
        let downloaded' := downloaded + nw
        match w with
        | .fail _ msg => ⟨written, [downloaded'], .wErr msg⟩
        | .ok =>
          match ev.rerr with
          | some .eof => ⟨written, [downloaded'], .done⟩
          | some (.oth msg) => ⟨written, [downloaded'], .rErr msg⟩
          | none =>
            let r := dlLoop rest ws' downloaded'
            ⟨written ++ r.dest, downloaded' :: r.prog, r.out⟩
    else
      match ev.rerr with
      | some .eof => ⟨[], [], .done⟩
      | some (.oth msg) => ⟨[], [], .rErr msg⟩
      | none => dlLoop rest ws downloaded

/-- `GoRepository.Download` after the response arrived: `total` is
`int(resp.ContentLength)` and only an exact zero aborts with the
unknown-length error before the loop starts. -/
def download (contentLength : Int) (reads : List ReadEv) (ws : List WResp) : DlResult :=
  if contentLength = 0 then ⟨[], [], .zeroLen⟩ else dlLoop reads ws 0

/-- The fraction handed to `onProgress`: `float64(downloaded)/float64(total)`. -/
def dlFrac (downloaded : Nat) (total : Int) : ℚ :=
  (downloaded : ℚ) / (total : ℚ)

lemma dlLoop_step_ok (ev : ReadEv) (rest : List ReadEv) (ws : List WResp) (d : Nat)
    (hnr : 0 < ev.data.length) (hr : ev.rerr = none) :
    dlLoop (ev :: rest) (WResp.ok :: ws) d
      = ⟨ev.data ++ (dlLoop rest ws (d + ev.data.length)).dest,
         (d + ev.data.length) :: (dlLoop rest ws (d + ev.data.length)).prog,
         (dlLoop rest ws (d + ev.data.length)).out⟩ := by
  simp [dlLoop, hnr, hr]

lemma dlLoop_step_wfail (ev : ReadEv) (rest : List ReadEv) (ws : List WResp) (d nw : Nat)
    (msg : String) (hnr : 0 < ev.data.length) :
    dlLoop (ev :: rest) (WResp.fail nw msg :: ws) d
      = ⟨ev.data.take nw, [d + nw], .wErr msg⟩ := by
  simp [dlLoop, hnr]

lemma dlLoop_step_rfail (ev : ReadEv) (rest : List ReadEv) (ws : List WResp) (d : Nat)
    (msg : String) (hnr : 0 < ev.data.length) (hr : ev.rerr = some (.oth msg)) :
    dlLoop (ev :: rest) (WResp.ok :: ws) d = ⟨ev.data, [d + ev.data.length], .rErr msg⟩ := by
  simp [dlLoop, hnr, hr]

lemma dlLoop_skip (rest : List ReadEv) (ws : List WResp) (d : Nat) :
    dlLoop (⟨[], none⟩ :: rest) ws d = dlLoop rest ws d := by
  simp [dlLoop]

lemma dlLoop_eof (rest : List ReadEv) (ws : List WResp) (d : Nat) :
    dlLoop (⟨[], some .eof⟩ :: rest) ws d = ⟨[], [], .done⟩ := by
  simp [dlLoop]

/-- C2 counterexample --
The claim says a download whose source declares an absent total length fails
immediately with the unknown-length error and writes nothing.  With the
absent-length sentinel `ContentLength = -1` the code only tests `total == 0`,
so the download proceeds, writes the body bytes and completes cleanly. -/
theorem c2_counterexample :
    (download (-1) [⟨[5, 6], some .eof⟩] [.ok]).out = .done
      ∧ (download (-1) [⟨[5, 6], some .eof⟩] [.ok]).dest = [5, 6]
      ∧ (download (-1) [⟨[5, 6], some .eof⟩] [.ok]).dest ≠ [] := by
  refine ⟨rfl, rfl, ?_⟩
  decide

/-- C2 (amended) --
Download fails immediately with the unknown-length error — before reading or
writing any body byte, so the destination receives no partial write — exactly
when the declared length equals zero; any nonzero declared length (including
the absent-length sentinel −1) lets the loop run. -/
theorem c2_zero_length_fails (contentLength : Int) (reads : List ReadEv) (ws : List WResp) :
    download 0 reads ws = ⟨[], [], .zeroLen⟩
      ∧ (contentLength ≠ 0 → download contentLength reads ws = dlLoop reads ws 0) := by
  constructor
  · rfl
  · intro h
    simp [download, h]

/-- Witness for C2 (amended): at declared length 0 with a nonempty body the
download aborts with the unknown-length outcome and writes nothing, and at
the nonzero length −1 the loop runs. -/
theorem c2_zero_length_fails_witness :
    download 0 [⟨[5, 6], some .eof⟩] [.ok] = ⟨[], [], .zeroLen⟩
      ∧ download (-1) [⟨[5, 6], some .eof⟩] [.ok] = dlLoop [⟨[5, 6], some .eof⟩] [.ok] 0 :=
  ⟨(c2_zero_length_fails (-1) [⟨[5, 6], some .eof⟩] [.ok]).1,
   (c2_zero_length_fails (-1) [⟨[5, 6], some .eof⟩] [.ok]).2 (by decide)⟩

/-- C5 counterexample --
The claim says a progress fraction is emitted only after a chunk's write
succeeds.  On a failing write the code still adds `nw` and calls
`onProgress` before inspecting the write error: here the single write fails
outright, yet one progress event (counter 0) is emitted. -/
theorem c5_counterexample :
    (download 10 [⟨[7], none⟩] [.fail 0 diskFullMsg]).out = .wErr diskFullMsg
      ∧ (download 10 [⟨[7], none⟩] [.fail 0 diskFullMsg]).prog = [0]
      ∧ (download 10 [⟨[7], none⟩] [.fail 0 diskFullMsg]).prog ≠ [] := by
  refine ⟨rfl, rfl, ?_⟩
  decide

/-- C5 (amended) --
Bytes move through the fixed 32 KiB buffer (so every read hands over at most
`bufSize` bytes) and each chunk is fully written and its progress emitted
before the next chunk is requested; after each chunk's write completes —
successfully or not — one progress counter equal to the accumulated written
bytes (fraction `downloaded/total`) is emitted; a write failure aborts the
download immediately with that I/O error right after its emission, and a
read failure other than a clean end-of-stream aborts it likewise. -/
theorem c5_chunked_writes (ev : ReadEv) (rest : List ReadEv) (ws : List WResp)
    (d nw : Nat) (msg : String) (hnr : 0 < ev.data.length) (_hbuf : ev.data.length ≤ bufSize) :
    bufSize = 32 * 1024
      ∧ dlLoop (ev :: rest) (WResp.fail nw msg :: ws) d
          = ⟨ev.data.take nw, [d + nw], .wErr msg⟩
      ∧ (ev.rerr = some (.oth msg) →
          dlLoop (ev :: rest) (WResp.ok :: ws) d
            = ⟨ev.data, [d + ev.data.length], .rErr msg⟩)
      ∧ (ev.rerr = none →
          dlLoop (ev :: rest) (WResp.ok :: ws) d
            = ⟨ev.data ++ (dlLoop rest ws (d + ev.data.length)).dest,
               (d + ev.data.length) :: (dlLoop rest ws (d + ev.data.length)).prog,
               (dlLoop rest ws (d + ev.data.length)).out⟩)
      ∧ dlLoop (⟨[], some (.oth msg)⟩ :: rest) ws d = ⟨[], [], .rErr msg⟩ := by
  refine ⟨rfl, ?_, ?_, ?_, rfl⟩
  · simp [dlLoop, hnr]
  · intro hr
    simp [dlLoop, hnr, hr]
  · intro hr
    simp [dlLoop, hnr, hr]

/-- Witness for C5 (amended): a concrete 2-byte chunk with a failing write. -/
theorem c5_chunked_writes_witness :
    bufSize = 32 * 1024
      ∧ dlLoop [⟨[7, 8], none⟩] [WResp.fail 1 diskFullMsg] 0
          = ⟨[7], [1], .wErr diskFullMsg⟩ := by
  have h := c5_chunked_writes ⟨[7, 8], none⟩ [] [] 0 1 diskFullMsg (by decide) (by decide)
  exact ⟨h.1, h.2.1⟩

/-- The cumulative progress counters a clean run emits: one entry per
nonempty chunk, carrying the byte count downloaded so far. -/
def progCounters (d : Nat) : List (List Nat) → List Nat
  | [] => []
  | c :: rest =>
    if 0 < c.length then (d + c.length) :: progCounters (d + c.length) rest
    else progCounters d rest

lemma progCounters_nil_iff (d : Nat) (chunks : List (List Nat)) :
    progCounters d chunks = [] ↔ chunks.flatten = [] := by
  induction chunks generalizing d with
  | nil => simp [progCounters]
  | cons c rest ih =>
    by_cases hc : 0 < c.length
    · have hne : c ≠ [] := by
        intro h; rw [h] at hc; simp at hc
      simp [progCounters, hc, hne]
    · have hce : c = [] := by
        cases c with
        | nil => rfl
        | cons a as => simp at hc
      simp [progCounters, hc, hce, ih]

lemma progCounters_getLast (d : Nat) (chunks : List (List Nat))
    (h : chunks.flatten ≠ []) :
    (progCounters d chunks).getLast? = some (d + chunks.flatten.length) := by
  induction chunks generalizing d with
  | nil => simp at h
  | cons c rest ih =>
    by_cases hc : 0 < c.length
    · rw [progCounters, if_pos hc]
      by_cases hr : rest.flatten = []
      · have hpr : progCounters (d + c.length) rest = [] := (progCounters_nil_iff _ _).mpr hr
        rw [hpr]
        simp [hr]
      · cases hpc : progCounters (d + c.length) rest with
        | nil => exact absurd ((progCounters_nil_iff _ _).mp hpc) hr
        | cons x xs =>
          have hih := ih (d + c.length) hr
          rw [hpc] at hih
          rw [List.getLast?_cons_cons, hih]
          simp [Nat.add_assoc]
    · have hce : c = [] := by
        cases c with
        | nil => rfl
        | cons a as => simp at hc
      subst hce
      rw [progCounters, if_neg hc]
      simpa using ih d (by simpa using h)

/-- A clean run of the download loop: chunked reads with nil errors, a final
empty EOF read, and fully succeeding writes deliver the whole body, emit the
cumulative counters and stop with a clean outcome. -/
lemma dlLoop_clean (chunks : List (List Nat)) (ws : List WResp) (d : Nat)
    (hws : ∀ w ∈ ws, w = WResp.ok) (hlen : chunks.length ≤ ws.length) :
    dlLoop ((chunks.map (fun c => ⟨c, none⟩)) ++ [⟨[], some .eof⟩]) ws d
      = ⟨chunks.flatten, progCounters d chunks, .done⟩ := by
  induction chunks generalizing ws d with
  | nil => simp [dlLoop_eof, progCounters]
  | cons c rest ih =>
    by_cases hc : 0 < c.length
    · cases ws with
      | nil => simp at hlen
      | cons w ws' =>
        have hw : w = WResp.ok := hws w (List.mem_cons_self _ _)
        subst hw
        rw [List.map_cons, List.cons_append,
          dlLoop_step_ok ⟨c, none⟩ _ ws' d hc rfl,
          ih ws' (d + c.length) (fun x hx => hws x (List.mem_cons_of_mem _ hx))
            (by simpa using hlen)]
        simp [progCounters, hc]
    · have hce : c = [] := by
        cases c with
        | nil => rfl
        | cons a as => simp at hc
      subst hce
      rw [List.map_cons, List.cons_append, dlLoop_skip,
        ih ws d hws (Nat.le_of_succ_le (by simpa using hlen))]
      simp [progCounters]

/-- C8 --
For a source body of N bytes whose declared total length is N (N > 0),
delivered as any chunking of the body with a clean end of stream and fully
succeeding writes, Download writes exactly the N body bytes to the
destination, ends cleanly, and the last progress counter is N — a fraction
of N / N = 1. -/
theorem c8_download_exact (chunks : List (List Nat)) (N : Nat)
    (hflat : chunks.flatten.length = N) (hN : 0 < N) :
    (download (N : Int) ((chunks.map (fun c => ⟨c, none⟩)) ++ [⟨[], some .eof⟩])
        (List.replicate chunks.length WResp.ok)).dest = chunks.flatten
      ∧ (download (N : Int) ((chunks.map (fun c => ⟨c, none⟩)) ++ [⟨[], some .eof⟩])
          (List.replicate chunks.length WResp.ok)).dest.length = N
      ∧ (download (N : Int) ((chunks.map (fun c => ⟨c, none⟩)) ++ [⟨[], some .eof⟩])
          (List.replicate chunks.length WResp.ok)).out = .done
      ∧ (download (N : Int) ((chunks.map (fun c => ⟨c, none⟩)) ++ [⟨[], some .eof⟩])
          (List.replicate chunks.length WResp.ok)).prog.getLast? = some N
      ∧ dlFrac N (N : Int) = 1 := by
  have hNz : (N : Int) ≠ 0 := by
    simpa using Nat.pos_iff_ne_zero.mp hN
  have hdl : download (N : Int) ((chunks.map (fun c => ⟨c, none⟩)) ++ [⟨[], some .eof⟩])
      (List.replicate chunks.length WResp.ok)
        = ⟨chunks.flatten, progCounters 0 chunks, .done⟩ := by
    rw [download, if_neg hNz]
    exact dlLoop_clean chunks _ 0 (fun w hw => (List.mem_replicate.mp hw).2) (by simp)
  refine ⟨by rw [hdl], by rw [hdl]; exact hflat, by rw [hdl], ?_, ?_⟩
  · rw [hdl]
    have hfne : chunks.flatten ≠ [] := by
      intro hx
      rw [hx] at hflat
      simp at hflat
      omega
    simpa [hflat] using progCounters_getLast 0 chunks hfne
  · unfold dlFrac
    rw [Int.cast_natCast]
    exact div_self (Nat.cast_ne_zero.mpr (Nat.pos_iff_ne_zero.mp hN))

/-- Witness for C8: a 3-byte body delivered in two chunks. -/
theorem c8_download_exact_witness :
    (download 3 (([[1, 2], [3]].map (fun c => ⟨c, none⟩)) ++ [⟨[], some .eof⟩])
        (List.replicate 2 WResp.ok)).dest = [1, 2, 3]
      ∧ (download 3 (([[1, 2], [3]].map (fun c => ⟨c, none⟩)) ++ [⟨[], some .eof⟩])
          (List.replicate 2 WResp.ok)).prog.getLast? = some 3 := by
  have h := c8_download_exact [[1, 2], [3]] 3 (by decide) (by decide)
  exact ⟨h.1, h.2.2.2.1⟩

/-! ## The archive extraction (`Decompress` in main.go)

The gzip-wrapped tar stream is modelled as a list of `tr.Next()` outcomes: a
valid header, `io.EOF`, or another error (in which case the Go tar reader
returns a nil header).  Paths are modelled as component lists relative to
the destination root `dst` (which `Decompress` creates with `MkdirAll`
before reading the archive, so the root always exists); `filepath.Join(dst,
header.Name)` then corresponds to the name's component list.  The rewind
(`r.Seek(0)` plus `gzr.Reset`) is modelled by running the second pass over
the same event list.  The local filesystem under `dst` is a set of created
directories plus an association list of regular files (most recent write
first, as `os.OpenFile` with `O_CREATE|O_TRUNC` replaces the content);
creating a file requires its parent directory to exist. -/

/-- The tar `Typeflag` values `Decompress` distinguishes. -/
inductive TypeFlag where
  | dir
  | reg
  | other
deriving DecidableEq

/-- One tar header: entry name (components relative to `dst`), type, the
permission mode, and the entry's bytes. -/
structure Header where
  name : List String
  typeflag : TypeFlag
  mode : Nat
  content : List Nat
deriving DecidableEq

/-- One `tr.Next()` outcome: a header with nil error, `io.EOF`, or another
error together with a nil header. -/
inductive TarEv where
  | next (h : Header)
  | eof
  | errEv (msg : String)
deriving DecidableEq

/-- Result of the counting pass: the count at EOF, a nil-header dereference
(a Go runtime panic), or an unterminated stream (out of modelled events). -/
inductive CountRes where
  | counted (n : Nat)
  | panicked
  | fuel
deriving DecidableEq

/-- The first pass of `Decompress`: `tr.Next()` until EOF, incrementing the
counter on regular-file headers.  A non-EOF error is not checked: the code
falls through to `header.Typeflag` with a nil header — a panic. -/
def countPass (acc : Nat) : List TarEv → CountRes
  | [] => .fuel
  | .eof :: _ => .counted acc
  | .errEv _ :: _ => .panicked
  | .next h :: rest => countPass (if h.typeflag = .reg then acc + 1 else acc) rest

/-- The filesystem state below `dst`: created directories and regular files
(path, mode, content), newest write first. -/
structure FS where
  dirs : List (List String)
  files : List (List String × Nat × List Nat)
deriving DecidableEq

/-- The empty tree right after `MkdirAll(dst)`. -/
def emptyFS : FS := ⟨[], []⟩

/-- All nonempty initial segments of a path: what `os.MkdirAll` creates. -/
def pathPrefixes (p : List String) : List (List String) :=
  (List.range p.length).map (fun k => p.take (k + 1))

/-- `os.Stat(target)` succeeds iff the path exists as a directory or file. -/
def statOk (fs : FS) (p : List String) : Bool :=
  fs.dirs.contains p || (fs.files.lookup p).isSome

/-- The `os.MkdirAll` failure when a path component exists as a file. -/
def notDirMsg : String := "mkdir target: not a directory"

/-- The `os.OpenFile` failure when the target exists as a directory. -/
def isDirMsg : String := "open target: is a directory"

/-- The `os.OpenFile` failure for a missing or non-directory parent. -/
def openFailMsg : String := "open target: no such file or directory"

/-- `os.MkdirAll(target, 0755)`: creates the directory and all intermediate
ones, idempotently for already existing directories, but fails with ENOTDIR
when some initial segment of the path already exists as a regular file. -/
def mkdirAllE (fs : FS) (p : List String) : Except String FS :=
  if (pathPrefixes p).any (fun q => (fs.files.lookup q).isSome) then .error notDirMsg
  else .ok { fs with dirs := fs.dirs ++ pathPrefixes p }

/-- The parent directory of a path exists (the root `dst` always does,
`Decompress` creates it up front). -/
def parentOk (fs : FS) (p : List String) : Bool :=
  p.dropLast = [] || fs.dirs.contains p.dropLast

/-- `os.OpenFile(target, O_CREATE|O_TRUNC|O_RDWR, mode)`: fails with EISDIR
when the target itself exists as a directory; otherwise creates or truncates
the file when the parent directory exists, and fails (ENOENT, or ENOTDIR for
a file in the parent position — `parentOk` only accepts directories) when it
does not. -/
def openFileE (fs : FS) (p : List String) (mode : Nat) (content : List Nat) :
    Except String FS :=
  if fs.dirs.contains p then .error isDirMsg
  else if parentOk fs p then .ok { fs with files := (p, mode, content) :: fs.files }
  else .error openFailMsg

/-- How the extraction pass ended. -/
inductive ExOut where
  | done
  | ioErr (msg : String)
  | tarErr (msg : String)
  | panicked
  | fuel
deriving DecidableEq

/-- Result of `Decompress`: the filesystem under `dst`, the emitted
`(countFiles, totalFiles)` progress pairs, and the outcome. -/
structure ExResult where
  fs : FS
  prog : List (Nat × Nat)
  out : ExOut
deriving DecidableEq

/-- The second pass of `Decompress`: for each entry, create the directory if
`os.Stat` fails (for `TypeDir`, returning `os.MkdirAll`'s error when it
fails) or create/truncate the file with the header's mode and copy its bytes
(for `TypeReg`, returning `os.OpenFile`'s error when it fails); all other
typeflags fall through the switch.  `onProgress(countFiles/totalFiles)` runs
after every successfully handled entry, whatever its type; an error returns
before the emission. -/
def extractLoop (total : Nat) (fs : FS) (cnt : Nat) : List TarEv → ExResult
  | [] => ⟨fs, [], .fuel⟩
  | .eof :: _ => ⟨fs, [], .done⟩
  | .errEv m :: _ => ⟨fs, [], .tarErr m⟩
  | .next h :: rest =>
    match h.typeflag with
    | .dir =>
      if statOk fs h.name then
        let r := extractLoop total fs cnt rest
        ⟨r.fs, (cnt, total) :: r.prog, r.out⟩
      else
        match mkdirAllE fs h.name with
        | .error e => ⟨fs, [], .ioErr e⟩
        | .ok fs' =>
          let r := extractLoop total fs' cnt rest
          ⟨r.fs, (cnt, total) :: r.prog, r.out⟩
    | .reg =>
      match openFileE fs h.name h.mode h.content with
      | .error e => ⟨fs, [], .ioErr e⟩
      | .ok fs' =>
        let r := extractLoop total fs' (cnt + 1) rest
        ⟨r.fs, (cnt + 1, total) :: r.prog, r.out⟩
    | .other =>
      let r := extractLoop total fs cnt rest
      ⟨r.fs, (cnt, total) :: r.prog, r.out⟩

/-- `Decompress` as a whole: the counting pass, the rewind (same events),
then the extraction pass with the pre-scanned denominator. -/
def decompressModel (events : List TarEv) : ExResult :=
  match countPass 0 events with
  | .counted total => extractLoop total emptyFS 0 events
  | .panicked => ⟨emptyFS, [], .panicked⟩
  | .fuel => ⟨emptyFS, [], .fuel⟩

/-- The fraction handed to `onProgress` by the extraction pass. -/
def exFrac (p : Nat × Nat) : ℚ :=
  (p.1 : ℚ) / (p.2 : ℚ)

/-- A corrupt-archive error as returned by a tar reader mid-scan. -/
def tarCorruptMsg : String := "archive/tar: invalid tar header"

/-- C9 (code evaluated at the failing input) --
The counting pass of `Decompress` checks `tr.Next()`'s error only against
`io.EOF`; on any other error the returned header is nil and the subsequent
`header.Typeflag` access dereferences it.  On a stream whose first `Next`
yields a corrupt-header error, the counting pass — and hence `Decompress` —
panics instead of returning the error. -/
theorem c9_failing_eval :
    countPass 0 [TarEv.errEv tarCorruptMsg] = .panicked
      ∧ decompressModel [TarEv.errEv tarCorruptMsg] = ⟨emptyFS, [], .panicked⟩
      ∧ countPass 0 [TarEv.next ⟨["f"], .reg, 420, [1]⟩, TarEv.errEv tarCorruptMsg]
          = .panicked := by
  exact ⟨rfl, rfl, rfl⟩

/-- Number of regular-file entries of an archive (the denominator counted
by the first pass). -/
def regCount (entries : List Header) : Nat :=
  (entries.filter (fun h => h.typeflag == .reg)).length

/-- The names of the regular-file entries, in archive order. -/
def regNames (entries : List Header) : List (List String) :=
  (entries.filter (fun h => h.typeflag == .reg)).map Header.name

/-- The `(countFiles, totalFiles)` pairs the extraction pass emits: one per
archive entry, where the counter advances exactly on regular files. -/
def emissionsSpec (total : Nat) (cnt : Nat) : List Header → List (Nat × Nat)
  | [] => []
  | h :: rest =>
    let cnt' := if h.typeflag = .reg then cnt + 1 else cnt
    (cnt', total) :: emissionsSpec total cnt' rest

/-- Well-formedness of an archive relative to already existing directories:
every entry is a directory or a regular file with a nonempty name, and every
regular file's parent directory is the root or was introduced by an earlier
directory entry. -/
def wfFrom (dirs : List (List String)) : List Header → Bool
  | [] => true
  | h :: rest =>
    match h.typeflag with
    | .dir => (h.name ≠ []) && wfFrom (dirs ++ pathPrefixes h.name) rest
    | .reg =>
      (h.name ≠ []) && (h.name.dropLast = [] || dirs.contains h.name.dropLast)
        && wfFrom dirs rest
    | .other => false

lemma contains_iff (l : List (List String)) (p : List String) :
    l.contains p = true ↔ p ∈ l :=
  List.elem_iff

lemma lookup_some_mem_keys {α : Type} [BEq α] [LawfulBEq α] {β : Type}
    (l : List (α × β)) (k : α) (v : β) (h : l.lookup k = some v) :
    k ∈ l.map Prod.fst := by
  induction l with
  | nil => simp [List.lookup] at h
  | cons kv rest ih =>
    rw [List.lookup] at h
    cases hk : k == kv.1 with
    | true =>
      simp only [List.map_cons, List.mem_cons]
      exact .inl (eq_of_beq hk)
    | false =>
      rw [hk] at h
      exact List.mem_cons_of_mem _ (ih h)

lemma lookup_cons_self {α : Type} [BEq α] [LawfulBEq α] {β : Type}
    (l : List (α × β)) (k : α) (v : β) :
    ((k, v) :: l).lookup k = some v := by
  simp [List.lookup]

lemma lookup_cons_ne {α : Type} [BEq α] [LawfulBEq α] {β : Type}
    (l : List (α × β)) (k k' : α) (v : β) (h : k' ≠ k) :
    ((k, v) :: l).lookup k' = l.lookup k' := by
  rw [List.lookup, show (k' == k) = false from beq_eq_false_iff_ne.mpr h]

lemma mem_pathPrefixes_self (p : List String) (h : p ≠ []) : p ∈ pathPrefixes p := by
  have hlen : 0 < p.length := List.length_pos.mpr h
  refine List.mem_map.mpr ⟨p.length - 1, List.mem_range.mpr (by omega), ?_⟩
  rw [show p.length - 1 + 1 = p.length by omega]
  exact List.take_length p

lemma pathPrefixes_trans (p q : List String) (hq : q ∈ pathPrefixes p) :
    ∀ q' ∈ pathPrefixes q, q' ∈ pathPrefixes p := by
  intro q' hq'
  obtain ⟨k, hk, rfl⟩ := List.mem_map.mp hq
  obtain ⟨j, hj, rfl⟩ := List.mem_map.mp hq'
  rw [List.mem_range] at hk hj
  rw [List.length_take] at hj
  rw [List.take_take]
  refine List.mem_map.mpr ⟨j, List.mem_range.mpr (by omega), ?_⟩
  congr 1
  omega

/-- Prefix-closedness of the created-directory set. -/
def prefClosed (dirs : List (List String)) : Prop :=
  ∀ q ∈ dirs, ∀ q' ∈ pathPrefixes q, q' ∈ dirs

lemma prefClosed_nil : prefClosed [] := by
  intro q hq
  simp at hq

lemma prefClosed_append (dirs : List (List String)) (p : List String)
    (h : prefClosed dirs) : prefClosed (dirs ++ pathPrefixes p) := by
  intro q hq q' hq'
  rcases List.mem_append.mp hq with hq | hq
  · exact List.mem_append.mpr (.inl (h q hq q' hq'))
  · exact List.mem_append.mpr (.inr (pathPrefixes_trans p q hq q' hq'))

/-- Running the extraction pass over an archive's entries followed by EOF. -/
def exRun (total : Nat) (fs : FS) (cnt : Nat) (entries : List Header) : ExResult :=
  extractLoop total fs cnt (entries.map TarEv.next ++ [TarEv.eof])

lemma exRun_nil (total : Nat) (fs : FS) (cnt : Nat) :
    exRun total fs cnt [] = ⟨fs, [], .done⟩ := rfl

lemma exRun_cons_dir_stat (total : Nat) (fs : FS) (cnt : Nat) (h : Header)
    (rest : List Header) (htf : h.typeflag = .dir) (hstat : statOk fs h.name = true) :
    exRun total fs cnt (h :: rest)
      = ⟨(exRun total fs cnt rest).fs,
         (cnt, total) :: (exRun total fs cnt rest).prog,
         (exRun total fs cnt rest).out⟩ := by
  simp [exRun, extractLoop, htf, hstat]

lemma exRun_cons_dir_mkdir (total : Nat) (fs : FS) (cnt : Nat) (h : Header)
    (rest : List Header) (htf : h.typeflag = .dir) (hstat : statOk fs h.name = false)
    (hok : ∀ q ∈ pathPrefixes h.name, fs.files.lookup q = none) :
    exRun total fs cnt (h :: rest)
      = ⟨(exRun total ⟨fs.dirs ++ pathPrefixes h.name, fs.files⟩ cnt rest).fs,
         (cnt, total)
           :: (exRun total ⟨fs.dirs ++ pathPrefixes h.name, fs.files⟩ cnt rest).prog,
         (exRun total ⟨fs.dirs ++ pathPrefixes h.name, fs.files⟩ cnt rest).out⟩ := by
  have hcond : ¬ ((pathPrefixes h.name).any (fun q => (fs.files.lookup q).isSome) = true) := by
    intro hc
    rw [List.any_eq_true] at hc
    obtain ⟨q, hq, hsome⟩ := hc
    rw [hok q hq] at hsome
    simp at hsome
  have hmk : mkdirAllE fs h.name = .ok ⟨fs.dirs ++ pathPrefixes h.name, fs.files⟩ := by
    rw [mkdirAllE, if_neg hcond]
  simp [exRun, extractLoop, htf, hstat, hmk]

lemma exRun_cons_reg (total : Nat) (fs : FS) (cnt : Nat) (h : Header)
    (rest : List Header) (htf : h.typeflag = .reg)
    (hndir : fs.dirs.contains h.name = false) (hp : parentOk fs h.name = true) :
    exRun total fs cnt (h :: rest)
      = ⟨(exRun total ⟨fs.dirs, (h.name, h.mode, h.content) :: fs.files⟩ (cnt + 1) rest).fs,
         (cnt + 1, total)
           :: (exRun total ⟨fs.dirs, (h.name, h.mode, h.content) :: fs.files⟩ (cnt + 1) rest).prog,
         (exRun total ⟨fs.dirs, (h.name, h.mode, h.content) :: fs.files⟩ (cnt + 1) rest).out⟩ := by
  have hop : openFileE fs h.name h.mode h.content
      = .ok ⟨fs.dirs, (h.name, h.mode, h.content) :: fs.files⟩ := by
    rw [openFileE, if_neg (by rw [hndir]; simp), if_pos hp]
  simp [exRun, extractLoop, htf, hop]

lemma regCount_cons (h : Header) (rest : List Header) :
    regCount (h :: rest) = (if h.typeflag = .reg then 1 else 0) + regCount rest := by
  by_cases hr : h.typeflag = .reg <;> simp [regCount, List.filter_cons, hr, Nat.add_comm]

lemma regNames_cons (h : Header) (rest : List Header) :
    regNames (h :: rest)
      = (if h.typeflag = .reg then [h.name] else []) ++ regNames rest := by
  by_cases hr : h.typeflag = .reg <;> simp [regNames, List.filter_cons, hr]

lemma countPass_events (entries : List Header) (acc : Nat) :
    countPass acc (entries.map TarEv.next ++ [TarEv.eof]) = .counted (acc + regCount entries) := by
  induction entries generalizing acc with
  | nil => simp [countPass, regCount]
  | cons h rest ih =>
    rw [List.map_cons, List.cons_append, countPass, ih, regCount_cons]
    by_cases hr : h.typeflag = .reg <;> simp [hr] <;> omega

lemma emissionsSpec_length (total cnt : Nat) (entries : List Header) :
    (emissionsSpec total cnt entries).length = entries.length := by
  induction entries generalizing cnt with
  | nil => rfl
  | cons h rest ih => simp [emissionsSpec, ih]

lemma emissionsSpec_snd (total cnt : Nat) (entries : List Header) :
    ∀ p ∈ emissionsSpec total cnt entries, p.2 = total := by
  induction entries generalizing cnt with
  | nil => simp [emissionsSpec]
  | cons h rest ih =>
    intro p hp
    rw [emissionsSpec] at hp
    rcases List.mem_cons.mp hp with rfl | hp
    · rfl
    · exact ih _ p hp

lemma emissionsSpec_getLast (total cnt : Nat) (entries : List Header) (h : entries ≠ []) :
    (emissionsSpec total cnt entries).getLast? = some (cnt + regCount entries, total) := by
  induction entries generalizing cnt with
  | nil => exact absurd rfl h
  | cons e rest ih =>
    rw [emissionsSpec]
    cases hrest : rest with
    | nil =>
      subst hrest
      by_cases hr : e.typeflag = .reg <;>
        simp [hr, regCount_cons, regCount, emissionsSpec]
    | cons e' rest' =>
      rw [← hrest]
      have hne : rest ≠ [] := by rw [hrest]; exact List.cons_ne_nil _ _
      cases hspec : emissionsSpec total (if e.typeflag = .reg then cnt + 1 else cnt) rest with
      | nil =>
        have := emissionsSpec_length total (if e.typeflag = .reg then cnt + 1 else cnt) rest
        rw [hspec] at this
        exact absurd (List.length_eq_zero.mp (by simpa using this.symm)) hne
      | cons x xs =>
        have hih := ih (if e.typeflag = .reg then cnt + 1 else cnt) hne
        rw [hspec] at hih
        rw [List.getLast?_cons_cons, hih, regCount_cons]
        by_cases hr : e.typeflag = .reg <;> simp [hr] <;> omega

/-- Every path `os.MkdirAll` creates for the archive's directory entries. -/
def allDirPrefixes (entries : List Header) : List (List String) :=
  ((entries.filter (fun h => h.typeflag == .dir)).map (fun h => pathPrefixes h.name)).flatten

lemma mem_allDirPrefixes (entries : List Header) (q : List String) :
    q ∈ allDirPrefixes entries
      ↔ ∃ h ∈ entries, h.typeflag = .dir ∧ q ∈ pathPrefixes h.name := by
  constructor
  · intro hq
    rw [allDirPrefixes, List.mem_flatten] at hq
    obtain ⟨l, hl, hql⟩ := hq
    rw [List.mem_map] at hl
    obtain ⟨h, hh, rfl⟩ := hl
    rw [List.mem_filter] at hh
    exact ⟨h, hh.1, by simpa using hh.2, hql⟩
  · intro ⟨h, hh, hht, hq⟩
    rw [allDirPrefixes, List.mem_flatten]
    exact ⟨pathPrefixes h.name,
      List.mem_map.mpr ⟨h, List.mem_filter.mpr ⟨hh, by simp [hht]⟩, rfl⟩, hq⟩

/-- The extraction pass on a well-formed archive: it terminates cleanly,
emits one `(countFiles, totalFiles)` pair per entry, only grows the
directory set, preserves regular files whose names no remaining entry
reuses, materializes every regular-file entry with its exact mode and bytes,
and creates every directory entry.  `dirs0` bounds the created directories
from below (what the remaining well-formedness judgment may assume exists)
and `dirsUB` from above: no remaining regular-file name is in `dirsUB` (so
`os.OpenFile` never hits EISDIR) and no key of the file table lies on any
remaining directory entry's path (so `os.MkdirAll` never hits ENOTDIR). -/
lemma extract_master (entries : List Header) :
    ∀ (total : Nat) (fs : FS) (cnt : Nat) (dirs0 dirsUB : List (List String)),
      wfFrom dirs0 entries = true →
      (∀ p ∈ dirs0, p ∈ fs.dirs) →
      prefClosed fs.dirs →
      (∀ k ∈ fs.files.map Prod.fst, ∀ h ∈ entries, h.typeflag = .dir →
        k ∉ pathPrefixes h.name) →
      (∀ p ∈ fs.dirs, p ∈ dirsUB) →
      (∀ h ∈ entries, h.typeflag = .dir → ∀ q ∈ pathPrefixes h.name, q ∈ dirsUB) →
      (∀ h ∈ entries, h.typeflag = .reg → h.name ∉ dirsUB) →
      (regNames entries).Nodup →
      (exRun total fs cnt entries).out = .done
        ∧ (exRun total fs cnt entries).prog = emissionsSpec total cnt entries
        ∧ (∀ p ∈ fs.dirs, p ∈ (exRun total fs cnt entries).fs.dirs)
        ∧ (∀ k v, fs.files.lookup k = some v →
            (∀ h ∈ entries, h.typeflag = .reg → k ≠ h.name) →
            (exRun total fs cnt entries).fs.files.lookup k = some v)
        ∧ (∀ h ∈ entries, h.typeflag = .reg →
            (exRun total fs cnt entries).fs.files.lookup h.name = some (h.mode, h.content))
        ∧ (∀ h ∈ entries, h.typeflag = .dir → h.name ∈ (exRun total fs cnt entries).fs.dirs) := by
  induction entries with
  | nil =>
    intro total fs cnt dirs0 dirsUB _ _ _ _ _ _ _ _
    rw [exRun_nil]
    refine ⟨rfl, rfl, fun p hp => hp, fun k v hk _ => hk, ?_, ?_⟩ <;> simp
  | cons h rest ih =>
    intro total fs cnt dirs0 dirsUB hwf hdirs0 hclosed hkeys hub hUBdirs hUBreg hnodup
    cases htf : h.typeflag with
    | other =>
      rw [wfFrom] at hwf
      rw [htf] at hwf
      simp at hwf
    | dir =>
      rw [wfFrom] at hwf
      rw [htf] at hwf
      simp only [Bool.and_eq_true, decide_eq_true_eq] at hwf
      obtain ⟨hname, hwfrest⟩ := hwf
      have hnodupRest : (regNames rest).Nodup := by
        have hrn := regNames_cons h rest
        rw [if_neg (by rw [htf]; intro hx; cases hx)] at hrn
        rw [hrn] at hnodup
        simpa using hnodup
      cases hstat0 : statOk fs h.name with
      | true =>
        have hmem : h.name ∈ fs.dirs := by
          rw [statOk, Bool.or_eq_true] at hstat0
          rcases hstat0 with hstat0 | hstat0
          · exact (contains_iff _ _).mp hstat0
          · rw [Option.isSome_iff_exists] at hstat0
            obtain ⟨v, hv⟩ := hstat0
            exact absurd (mem_pathPrefixes_self h.name hname)
              (hkeys h.name (lookup_some_mem_keys _ _ _ hv) h (List.mem_cons_self _ _) htf)
        have hpfx : ∀ q ∈ pathPrefixes h.name, q ∈ fs.dirs :=
          fun q hq => hclosed h.name hmem q hq
        have hih := ih total fs cnt (dirs0 ++ pathPrefixes h.name) dirsUB hwfrest
          (by
            intro p hp
            rcases List.mem_append.mp hp with hp | hp
            · exact hdirs0 p hp
            · exact hpfx p hp)
          hclosed
          (fun k hk d hd hdt => hkeys k hk d (List.mem_cons_of_mem _ hd) hdt)
          hub
          (fun d hd hdt => hUBdirs d (List.mem_cons_of_mem _ hd) hdt)
          (fun r hr hrt => hUBreg r (List.mem_cons_of_mem _ hr) hrt)
          hnodupRest
        rw [exRun_cons_dir_stat total fs cnt h rest htf hstat0]
        obtain ⟨ih1, ih2, ih3, ih4, ih5, ih6⟩ := hih
        refine ⟨ih1, ?_, ?_, ?_, ?_, ?_⟩
        · rw [emissionsSpec]
          rw [if_neg (by rw [htf]; intro hx; cases hx)]
          simpa using ih2
        · exact fun p hp => ih3 p hp
        · intro k v hk hkr
          exact ih4 k v hk (fun h' hh' hh't => hkr h' (List.mem_cons_of_mem _ hh') hh't)
        · intro h' hh' hh't
          rcases List.mem_cons.mp hh' with rfl | hh'
          · rw [htf] at hh't; cases hh't
          · exact ih5 h' hh' hh't
        · intro h' hh' hh't
          rcases List.mem_cons.mp hh' with rfl | hh'
          · exact ih3 h'.name hmem
          · exact ih6 h' hh' hh't
      | false =>
        have hok : ∀ q ∈ pathPrefixes h.name, fs.files.lookup q = none := by
          intro q hq
          cases hl : fs.files.lookup q with
          | none => rfl
          | some v =>
            exact absurd hq
              (hkeys q (lookup_some_mem_keys _ _ _ hl) h (List.mem_cons_self _ _) htf)
        have hpfxUB : ∀ q ∈ pathPrefixes h.name, q ∈ dirsUB :=
          fun q hq => hUBdirs h (List.mem_cons_self _ _) htf q hq
        have hih := ih total ⟨fs.dirs ++ pathPrefixes h.name, fs.files⟩ cnt
          (dirs0 ++ pathPrefixes h.name) dirsUB hwfrest
          (by
            intro p hp
            rcases List.mem_append.mp hp with hp | hp
            · exact List.mem_append.mpr (.inl (hdirs0 p hp))
            · exact List.mem_append.mpr (.inr hp))
          (prefClosed_append fs.dirs h.name hclosed)
          (fun k hk d hd hdt => hkeys k hk d (List.mem_cons_of_mem _ hd) hdt)
          (by
            intro p hp
            rcases List.mem_append.mp hp with hp | hp
            · exact hub p hp
            · exact hpfxUB p hp)
          (fun d hd hdt => hUBdirs d (List.mem_cons_of_mem _ hd) hdt)
          (fun r hr hrt => hUBreg r (List.mem_cons_of_mem _ hr) hrt)
          hnodupRest
        rw [exRun_cons_dir_mkdir total fs cnt h rest htf hstat0 hok]
        obtain ⟨ih1, ih2, ih3, ih4, ih5, ih6⟩ := hih
        refine ⟨ih1, ?_, ?_, ?_, ?_, ?_⟩
        · rw [emissionsSpec]
          rw [if_neg (by rw [htf]; intro hx; cases hx)]
          simpa using ih2
        · intro p hp
          exact ih3 p (List.mem_append.mpr (.inl hp))
        · intro k v hk hkr
          exact ih4 k v hk (fun h' hh' hh't => hkr h' (List.mem_cons_of_mem _ hh') hh't)
        · intro h' hh' hh't
          rcases List.mem_cons.mp hh' with rfl | hh'
          · rw [htf] at hh't; cases hh't
          · exact ih5 h' hh' hh't
        · intro h' hh' hh't
          rcases List.mem_cons.mp hh' with rfl | hh'
          · exact ih3 h'.name
              (List.mem_append.mpr (.inr (mem_pathPrefixes_self h'.name hname)))
          · exact ih6 h' hh' hh't
    | reg =>
      rw [wfFrom] at hwf
      rw [htf] at hwf
      simp only [Bool.and_eq_true, Bool.or_eq_true, decide_eq_true_eq] at hwf
      obtain ⟨⟨hname, hparent⟩, hwfrest⟩ := hwf
      have hp : parentOk fs h.name = true := by
        rw [parentOk, Bool.or_eq_true]
        rcases hparent with hparent | hparent
        · left; simpa using hparent
        · right
          exact (contains_iff _ _).mpr (hdirs0 _ ((contains_iff _ _).mp hparent))
      have hndirP : h.name ∉ fs.dirs :=
        fun hmem => hUBreg h (List.mem_cons_self _ _) htf (hub _ hmem)
      have hndir : fs.dirs.contains h.name = false := by
        cases hc : fs.dirs.contains h.name with
        | false => rfl
        | true => exact absurd ((contains_iff _ _).mp hc) hndirP
      have hnodup' : h.name ∉ regNames rest ∧ (regNames rest).Nodup := by
        have := regNames_cons h rest
        rw [if_pos htf] at this
        rw [this] at hnodup
        simpa using hnodup
      set fs' : FS := ⟨fs.dirs, (h.name, h.mode, h.content) :: fs.files⟩ with hfs'
      have hih := ih total fs' (cnt + 1) dirs0 dirsUB hwfrest
        (by intro p hp; exact hdirs0 p hp)
        hclosed
        (by
          intro k hk d hd hdt
          rw [hfs'] at hk
          simp only [List.map_cons, List.mem_cons] at hk
          rcases hk with rfl | hk
          · intro hq
            exact hUBreg h (List.mem_cons_self _ _) htf
              (hUBdirs d (List.mem_cons_of_mem _ hd) hdt _ hq)
          · exact hkeys k hk d (List.mem_cons_of_mem _ hd) hdt)
        (by intro p hp; exact hub p hp)
        (fun d hd hdt => hUBdirs d (List.mem_cons_of_mem _ hd) hdt)
        (fun r hr hrt => hUBreg r (List.mem_cons_of_mem _ hr) hrt)
        hnodup'.2
      rw [exRun_cons_reg total fs cnt h rest htf hndir hp, ← hfs']
      obtain ⟨ih1, ih2, ih3, ih4, ih5, ih6⟩ := hih
      refine ⟨ih1, ?_, ?_, ?_, ?_, ?_⟩
      · rw [emissionsSpec]
        rw [if_pos htf]
        simpa using ih2
      · intro p hp
        exact ih3 p hp
      · intro k v hk hkr
        have hkh : k ≠ h.name := hkr h (List.mem_cons_self _ _) htf
        refine ih4 k v ?_ ?_
        · rw [hfs']
          show ((h.name, h.mode, h.content) :: fs.files).lookup k = some v
          rw [lookup_cons_ne fs.files h.name k (h.mode, h.content) hkh]
          exact hk
        · intro h' hh' hh't
          exact hkr h' (List.mem_cons_of_mem _ hh') hh't
      · intro h' hh' hh't
        rcases List.mem_cons.mp hh' with rfl | hh'
        · refine ih4 h'.name (h'.mode, h'.content) ?_ ?_
          · rw [hfs']
            exact lookup_cons_self fs.files h'.name (h'.mode, h'.content)
          · intro r hr hrt
            intro hx
            apply hnodup'.1
            rw [hx]
            rw [regNames]
            exact List.mem_map.mpr ⟨r, List.mem_filter.mpr ⟨hr, by simp [hrt]⟩, rfl⟩
        · exact ih5 h' hh' hh't
      · intro h' hh' hh't
        rcases List.mem_cons.mp hh' with rfl | hh'
        · rw [htf] at hh't; cases hh't
        · exact ih6 h' hh' hh't

/-- C6 counterexample --
The claim says a progress fraction is emitted after each regular-file entry
and only then.  On an archive with one directory entry followed by one
regular file, `Decompress` emits two progress events — the first, `(0, 1)`,
right after the directory entry — while the archive has a single
regular-file entry. -/
theorem c6_counterexample :
    (decompressModel [TarEv.next ⟨["d"], .dir, 493, []⟩,
        TarEv.next ⟨["f"], .reg, 420, [9]⟩, TarEv.eof]).prog = [(0, 1), (1, 1)]
      ∧ regCount [⟨["d"], .dir, 493, []⟩, ⟨["f"], .reg, 420, [9]⟩] = 1
      ∧ (decompressModel [TarEv.next ⟨["d"], .dir, 493, []⟩,
            TarEv.next ⟨["f"], .reg, 420, [9]⟩, TarEv.eof]).prog.length
          ≠ regCount [⟨["d"], .dir, 493, []⟩, ⟨["f"], .reg, 420, [9]⟩] := by
  refine ⟨by decide, by decide, by decide⟩

/-- C6 (amended) --
`Decompress` uses exactly two passes: the first only counts regular-file
entries (directories excluded from the denominator), the source is rewound,
and the second pass extracts; the denominator of every emitted fraction is
the pre-scanned regular-file count, fixed before the first byte is written.
On a well-formed archive (parents created by earlier directory entries, no
regular-file name on any directory entry's path — else `os.MkdirAll` or
`os.OpenFile` would fail — and distinct regular-file names), a progress
fraction of extracted regular files over that total is emitted after every
archive entry — after regular files with the counter advanced, and also
(with the counter unchanged) after directory entries. -/
theorem c6_progress_per_entry (entries : List Header)
    (hwf : wfFrom [] entries = true)
    (hsep : ∀ r ∈ entries, r.typeflag = .reg → r.name ∉ allDirPrefixes entries)
    (hnodup : (regNames entries).Nodup) :
    decompressModel (entries.map TarEv.next ++ [TarEv.eof])
        = exRun (regCount entries) emptyFS 0 entries
      ∧ (decompressModel (entries.map TarEv.next ++ [TarEv.eof])).prog
          = emissionsSpec (regCount entries) 0 entries
      ∧ (decompressModel (entries.map TarEv.next ++ [TarEv.eof])).prog.length
          = entries.length
      ∧ (∀ p ∈ (decompressModel (entries.map TarEv.next ++ [TarEv.eof])).prog,
          p.2 = regCount entries)
      ∧ (decompressModel (entries.map TarEv.next ++ [TarEv.eof])).out = .done := by
  have hdm : decompressModel (entries.map TarEv.next ++ [TarEv.eof])
      = exRun (regCount entries) emptyFS 0 entries := by
    rw [decompressModel, countPass_events entries 0]
    simp [exRun]
  have hmaster := extract_master entries (regCount entries) emptyFS 0 []
    (allDirPrefixes entries) hwf
    (by intro p hp; simp at hp)
    prefClosed_nil
    (by intro k hk; simp [emptyFS] at hk)
    (by intro p hp; simp [emptyFS] at hp)
    (by
      intro h hh hht q hq
      exact (mem_allDirPrefixes entries q).mpr ⟨h, hh, hht, hq⟩)
    hsep hnodup
  refine ⟨hdm, ?_, ?_, ?_, ?_⟩
  · rw [hdm]; exact hmaster.2.1
  · rw [hdm, hmaster.2.1]
    exact emissionsSpec_length _ _ _
  · rw [hdm, hmaster.2.1]
    exact emissionsSpec_snd _ _ _
  · rw [hdm]; exact hmaster.1

/-- Witness for C6 (amended): one directory entry and one regular file. -/
theorem c6_progress_per_entry_witness :
    (decompressModel ([⟨["d"], .dir, 493, []⟩, (⟨["d", "f"], .reg, 420, [1, 2]⟩ : Header)].map
          TarEv.next ++ [TarEv.eof])).prog
        = emissionsSpec 1 0 [⟨["d"], .dir, 493, []⟩, ⟨["d", "f"], .reg, 420, [1, 2]⟩]
      ∧ (decompressModel ([⟨["d"], .dir, 493, []⟩,
            (⟨["d", "f"], .reg, 420, [1, 2]⟩ : Header)].map TarEv.next ++ [TarEv.eof])).out
          = .done := by
  have h := c6_progress_per_entry
    [⟨["d"], .dir, 493, []⟩, ⟨["d", "f"], .reg, 420, [1, 2]⟩]
    (by decide) (by decide) (by decide)
  exact ⟨h.2.1, h.2.2.2.2⟩

/-- C7 --
Installing a well-formed archive containing directories and regular files
(parents created by earlier directory entries, no regular-file name on any
directory entry's path — such an archive cannot extract on a real
filesystem: `os.MkdirAll`/`os.OpenFile` would fail with ENOTDIR/EISDIR —
and distinct regular-file names) recreates every entry under the
destination root: every regular-file entry is present at its relative path
with exactly the entry's bytes and declared permission mode, every
directory entry's path exists as a directory (creation being idempotent),
the pass completes cleanly, and the final emitted progress fraction is
`regCount/regCount = 1`. -/
theorem c7_install_recreates (entries : List Header)
    (hwf : wfFrom [] entries = true)
    (hsep : ∀ r ∈ entries, r.typeflag = .reg → r.name ∉ allDirPrefixes entries)
    (hnodup : (regNames entries).Nodup)
    (hreg : 0 < regCount entries)
    (_hdir : ∃ d ∈ entries, d.typeflag = .dir) :
    (decompressModel (entries.map TarEv.next ++ [TarEv.eof])).out = .done
      ∧ (∀ h ∈ entries, h.typeflag = .reg →
          (decompressModel (entries.map TarEv.next ++ [TarEv.eof])).fs.files.lookup h.name
            = some (h.mode, h.content))
      ∧ (∀ h ∈ entries, h.typeflag = .dir →
          h.name ∈ (decompressModel (entries.map TarEv.next ++ [TarEv.eof])).fs.dirs)
      ∧ (decompressModel (entries.map TarEv.next ++ [TarEv.eof])).prog.getLast?
          = some (regCount entries, regCount entries)
      ∧ exFrac (regCount entries, regCount entries) = 1 := by
  have hdm : decompressModel (entries.map TarEv.next ++ [TarEv.eof])
      = exRun (regCount entries) emptyFS 0 entries := by
    rw [decompressModel, countPass_events entries 0]
    simp [exRun]
  have hmaster := extract_master entries (regCount entries) emptyFS 0 []
    (allDirPrefixes entries) hwf
    (by intro p hp; simp at hp)
    prefClosed_nil
    (by intro k hk; simp [emptyFS] at hk)
    (by intro p hp; simp [emptyFS] at hp)
    (by
      intro h hh hht q hq
      exact (mem_allDirPrefixes entries q).mpr ⟨h, hh, hht, hq⟩)
    hsep hnodup
  have hne : entries ≠ [] := by
    intro hx
    rw [hx] at hreg
    simp [regCount] at hreg
  refine ⟨?_, ?_, ?_, ?_, ?_⟩
  · rw [hdm]; exact hmaster.1
  · intro h hh hht
    rw [hdm]
    exact hmaster.2.2.2.2.1 h hh hht
  · intro h hh hht
    rw [hdm]
    exact hmaster.2.2.2.2.2 h hh hht
  · rw [hdm, hmaster.2.1]
    simpa using emissionsSpec_getLast (regCount entries) 0 entries hne
  · rw [exFrac]
    exact div_self (Nat.cast_ne_zero.mpr (Nat.pos_iff_ne_zero.mp hreg))

/-- Witness for C7: a directory `d` and a regular file `d/f` with bytes
`[1, 2]` and mode `0644`. -/
theorem c7_install_recreates_witness :
    (decompressModel ([⟨["d"], .dir, 493, []⟩, (⟨["d", "f"], .reg, 420, [1, 2]⟩ : Header)].map
          TarEv.next ++ [TarEv.eof])).fs.files.lookup (("d" :: ["f"]) : List String)
        = some (420, [1, 2])
      ∧ (decompressModel ([⟨["d"], .dir, 493, []⟩,
            (⟨["d", "f"], .reg, 420, [1, 2]⟩ : Header)].map TarEv.next ++ [TarEv.eof])).prog.getLast?
          = some (1, 1)
      ∧ exFrac (1, 1) = 1 := by
  have h := c7_install_recreates
    [⟨["d"], .dir, 493, []⟩, ⟨["d", "f"], .reg, 420, [1, 2]⟩]
    (by decide) (by decide) (by decide) (by decide)
    ⟨⟨["d"], .dir, 493, []⟩, by decide, rfl⟩
  refine ⟨?_, ?_, ?_⟩
  · exact h.2.1 ⟨["d", "f"], .reg, 420, [1, 2]⟩ (by decide) rfl
  · exact h.2.2.2.1
  · exact h.2.2.2.2

/-! ## Release ordering (`ByRelease` over `go/version.Compare`) and the
presented list (main.go)

`ByRelease.Less(i, j)` is `version.Compare(a[i].Version, a[j].Version) > 0`.
`go/version.Compare` strips the "go" prefix (after cutting at the first
'-') and delegates to `gover.Compare`, which parses each side into
major/minor/patch/kind/pre fields (the zero value for an invalid version)
and compares them field by field — `CmpInt` on the numeric fields (the
empty string smallest, then by length, then lexicographically) and a plain
string comparison on the kind. -/

/-- Three-way byte-lexicographic string comparison (`strings.Compare`),
over character lists. -/
def cmpChars : List Char → List Char → Int
  | [], [] => 0
  | [], _ :: _ => -1
  | _ :: _, [] => 1
  | a :: as, b :: bs => if a < b then -1 else if b < a then 1 else cmpChars as bs

/-- `gover.CmpInt`: decimal strings without leading zeros; the empty string
is smallest, then shorter before longer, then lexicographic. -/
def cmpIntC (x y : List Char) : Int :=
  if x = y then 0
  else if x = [] then -1
  else if y = [] then 1
  else if x.length < y.length then -1
  else if y.length < x.length then 1
  else if cmpChars x y < 0 then -1
  else 1

/-- `gover.Version`: the parsed fields; all-empty is the invalid version. -/
structure GoVer where
  major : List Char
  minor : List Char
  patch : List Char
  kind : List Char
  pre : List Char
deriving DecidableEq

/-- The zero `gover.Version` returned for invalid inputs. -/
def GoVer.zero : GoVer := ⟨[], [], [], [], []⟩

/-- `gover.cutInt`: the maximal leading digit run; fails when there is none
or when it has an unnecessary leading zero. -/
def cutInt (x : List Char) : Option (List Char × List Char) :=
  let digits := x.takeWhile (fun c => c.isDigit)
  if digits = [] then none
  else if x.head? = some '0' ∧ digits.length ≠ 1 then none
  else some (digits, x.drop digits.length)

/-- `gover.Parse` on a version body (after the "go" prefix was stripped):
`"1"` reads as 1.0.0; a missing patch is "0" for minors below 21 and empty
from 1.21 on; a prerelease kind is a nonempty lowercase run optionally
followed by a number; anything else is invalid. -/
def goverParse (x : List Char) : GoVer :=
  match cutInt x with
  | none => GoVer.zero
  | some (major, x1) =>
    if x1 = [] then ⟨major, ['0'], ['0'], [], []⟩
    else if x1.head? ≠ some '.' then GoVer.zero
    else
      match cutInt (x1.drop 1) with
      | none => GoVer.zero
      | some (minor, x2) =>
        if x2 = [] then
          if cmpIntC minor ['2', '1'] < 0 then ⟨major, minor, ['0'], [], []⟩
          else ⟨major, minor, [], [], []⟩
        else if x2.head? = some '.' then
          match cutInt (x2.drop 1) with
          | none => GoVer.zero
          | some (patch, x3) =>
            if x3 ≠ [] then GoVer.zero else ⟨major, minor, patch, [], []⟩
        else
          let kindRun := x2.takeWhile (fun c => !c.isDigit)
          if kindRun.any (fun c => decide ¬('a' ≤ c ∧ c ≤ 'z')) then GoVer.zero
          else if kindRun = [] then GoVer.zero
          else
            let x3 := x2.drop kindRun.length
            if x3 = [] then ⟨major, minor, [], kindRun, []⟩
            else
              match cutInt x3 with
              | none => GoVer.zero
              | some (pre, x4) =>
                if x4 ≠ [] then GoVer.zero else ⟨major, minor, [], kindRun, pre⟩

/-- The `if c := cmp(...); c != 0 { return c }` cascade of `gover.Compare`. -/
def chain2 (a b : Int) : Int := if a ≠ 0 then a else b

/-- `gover.Compare`: parse both sides, then compare field by field. -/
def goverCompare (x y : List Char) : Int :=
  let vx := goverParse x
  let vy := goverParse y
  chain2 (cmpIntC vx.major vy.major)
    (chain2 (cmpIntC vx.minor vy.minor)
      (chain2 (cmpIntC vx.patch vy.patch)
        (chain2 (cmpChars vx.kind vy.kind)
          (cmpIntC vx.pre vy.pre))))

/-- `stripGo` of go/version: cut at the first '-', require the "go" prefix,
keep the remainder; anything else becomes the (invalid) empty version. -/
def stripGo (v : List Char) : List Char :=
  match v.takeWhile (fun c => c ≠ '-') with
  | 'g' :: 'o' :: rest => rest
  | _ => []

/-- `go/version.Compare` on the catalog's version strings. -/
def goVersionCompare (x y : String) : Int :=
  goverCompare (stripGo x.data) (stripGo y.data)

/-- `ByRelease.Less`: strictly greater under `version.Compare`. -/
def byReleaseLess (a b : Release) : Bool :=
  goVersionCompare a.version b.version > 0

/-- The postcondition of `sort.Sort(ByRelease(...))`: no adjacent pair is
out of order under `Less`. -/
def sortedByRelease (l : List Release) : Prop :=
  l.Chain' (fun a b => ¬ byReleaseLess b a = true)

/-- Non-increasing under the version comparison. -/
def nonIncreasingBy (l : List Release) : Prop :=
  l.Chain' (fun a b => 0 ≤ goVersionCompare a.version b.version)

/-- The presentation loop of `main`: the items handed to the list widget are
appended in catalog order (`for _, v := range versions`). -/
def presentedItems (versions : List Release) : List String :=
  versions.foldl (fun items v => items ++ [v.version]) []

/-- Sample version strings from the repository's test data. -/
def goV1202 : String := "go1.20.2"

def goV120 : String := "go1.20"

def goV1197 : String := "go1.19.7"

def goV11810 : String := "go1.18.10"

/-- Strings that are not valid go versions. -/
def junkVer1 : String := "not-a-version"

def junkVer2 : String := "1.20.2.9000?"

lemma presentedItems_foldl (versions : List Release) (acc : List String) :
    versions.foldl (fun items v => items ++ [v.version]) acc
      = acc ++ versions.map Release.version := by
  induction versions generalizing acc with
  | nil => simp
  | cons v rest ih => simp [List.foldl_cons, ih]

lemma presentedItems_eq_map (versions : List Release) :
    presentedItems versions = versions.map Release.version := by
  simpa [presentedItems] using presentedItems_foldl versions []

lemma cmpChars_antisym (x : List Char) : ∀ y, cmpChars x y = -cmpChars y x := by
  induction x with
  | nil => intro y; cases y <;> simp [cmpChars]
  | cons a as ih =>
    intro y
    cases y with
    | nil => simp [cmpChars]
    | cons b bs =>
      by_cases hab : a < b
      · have hba : ¬ b < a := asymm hab
        simp [cmpChars, hab, hba]
      · by_cases hba : b < a
        · simp [cmpChars, hab, hba]
        · simp [cmpChars, hab, hba, ih bs]

lemma cmpChars_eq_zero (x : List Char) : ∀ y, cmpChars x y = 0 → x = y := by
  induction x with
  | nil =>
    intro y h
    cases y with
    | nil => rfl
    | cons b bs => simp [cmpChars] at h
  | cons a as ih =>
    intro y h
    cases y with
    | nil => simp [cmpChars] at h
    | cons b bs =>
      by_cases hab : a < b
      · rw [cmpChars, if_pos hab] at h
        cases h
      · by_cases hba : b < a
        · rw [cmpChars, if_neg hab, if_pos hba] at h
          cases h
        · rw [cmpChars, if_neg hab, if_neg hba] at h
          rw [le_antisymm (le_of_not_lt hba) (le_of_not_lt hab), ih bs h]

lemma cmpIntC_antisym (x y : List Char) : cmpIntC x y = -cmpIntC y x := by
  unfold cmpIntC
  by_cases hxy : x = y
  · simp [hxy]
  · have hyx : y ≠ x := fun h => hxy h.symm
    rw [if_neg hxy, if_neg hyx]
    by_cases hx : x = []
    · have hy : ¬ y = [] := fun h => hxy (hx.trans h.symm)
      simp [hx, hy]
    · by_cases hy : y = []
      · simp [hx, hy]
      · rw [if_neg hx, if_neg hy, if_neg hy, if_neg hx]
        by_cases h1 : x.length < y.length
        · have h2 : ¬ y.length < x.length := by omega
          simp [h1, h2]
        · by_cases h2 : y.length < x.length
          · simp [h1, h2]
          · rw [if_neg h1, if_neg h2, if_neg h2, if_neg h1]
            have ha := cmpChars_antisym x y
            have hne : cmpChars x y ≠ 0 := fun h0 => hxy (cmpChars_eq_zero x y h0)
            by_cases hlt : cmpChars x y < 0
            · have hgt : ¬ cmpChars y x < 0 := by omega
              simp [hlt, hgt]
            · have hgt : cmpChars y x < 0 := by omega
              simp [hlt, hgt]

lemma chain2_antisym (a b a' b' : Int) (ha : a' = -a) (hb : b' = -b) :
    chain2 a' b' = -chain2 a b := by
  rw [chain2, chain2, ha, hb]
  by_cases h : a = 0
  · simp [h]
  · have h' : ¬ -a = 0 := by omega
    simp [h, h']

lemma goverCompare_antisym (x y : List Char) : goverCompare x y = -goverCompare y x := by
  unfold goverCompare
  exact chain2_antisym _ _ _ _ (cmpIntC_antisym _ _)
    (chain2_antisym _ _ _ _ (cmpIntC_antisym _ _)
      (chain2_antisym _ _ _ _ (cmpIntC_antisym _ _)
        (chain2_antisym _ _ _ _ (cmpChars_antisym _ _) (cmpIntC_antisym _ _))))

lemma goVersionCompare_antisym (x y : String) :
    goVersionCompare x y = -goVersionCompare y x :=
  goverCompare_antisym _ _

/-- C4 counterexample --
The claim says the list presented to the user is in descending order under
the dotted-numeric comparison.  `main` builds the widget items in catalog
order without sorting: a catalog received as [go1.19.7, go1.20.2] is
presented exactly so, although go1.19.7 < go1.20.2. -/
theorem c4_counterexample :
    presentedItems [{ version := goV1197, stable := true, files := [] },
        { version := goV1202, stable := true, files := [] }] = [goV1197, goV1202]
      ∧ goVersionCompare goV1197 goV1202 = -1
      ∧ ¬ nonIncreasingBy [{ version := goV1197, stable := true, files := [] },
          { version := goV1202, stable := true, files := [] }] := by
  refine ⟨by decide, by decide, ?_⟩
  rw [nonIncreasingBy, List.chain'_pair]
  decide

/-- C4 (amended) --
Sorting with the release ordering can never crash and yields a descending
sequence: `main` presents the catalog exactly in received order (so the list
shown to the user is descending only when the remote already orders it so);
any list satisfying the `sort.Sort(ByRelease(...))` postcondition is
non-increasing under `go/version.Compare` (which orders the test catalog
"go1.20.2" > "go1.20" > "go1.19.7" > "go1.18.10"); the comparison is a
total function on all strings, strings that are not valid go versions all
comparing equal (no lexical fallback, no crash); and `sort.Sort` gives no
stability guarantee on ties. -/
theorem c4_descending_order (versions : List Release) (l : List Release) :
    presentedItems versions = versions.map Release.version
      ∧ (sortedByRelease l → nonIncreasingBy l)
      ∧ goVersionCompare goV1202 goV120 = 1
      ∧ goVersionCompare goV120 goV1197 = 1
      ∧ goVersionCompare goV1197 goV11810 = 1
      ∧ goVersionCompare junkVer1 junkVer2 = 0
      ∧ goVersionCompare junkVer1 goV1202 = -1 := by
  refine ⟨presentedItems_eq_map versions, ?_, by decide, by decide, by decide, by decide,
    by decide⟩
  intro hs
  refine List.Chain'.imp ?_ hs
  intro a b hab
  have ha := goVersionCompare_antisym a.version b.version
  have hb : ¬ (0 < goVersionCompare b.version a.version) := by
    intro hx
    exact hab (by simpa [byReleaseLess] using hx)
  omega

/-- Witness for C4 (amended): the test catalog of the repository, in the
sorted order its test expects. -/
theorem c4_descending_order_witness :
    presentedItems [{ version := goV1202, stable := true, files := [] },
        { version := goV120, stable := true, files := [] },
        { version := goV1197, stable := true, files := [] },
        { version := goV11810, stable := true, files := [] }]
        = [goV1202, goV120, goV1197, goV11810]
      ∧ nonIncreasingBy [{ version := goV1202, stable := true, files := [] },
          { version := goV120, stable := true, files := [] },
          { version := goV1197, stable := true, files := [] },
          { version := goV11810, stable := true, files := [] }] := by
  have h := c4_descending_order
    [{ version := goV1202, stable := true, files := [] },
     { version := goV120, stable := true, files := [] },
     { version := goV1197, stable := true, files := [] },
     { version := goV11810, stable := true, files := [] }]
    [{ version := goV1202, stable := true, files := [] },
     { version := goV120, stable := true, files := [] },
     { version := goV1197, stable := true, files := [] },
     { version := goV11810, stable := true, files := [] }]
  refine ⟨by decide, h.2.1 ?_⟩
  rw [sortedByRelease]
  refine List.chain'_cons.mpr ⟨by decide, ?_⟩
  refine List.chain'_cons.mpr ⟨by decide, ?_⟩
  exact List.chain'_pair.mpr (by decide)

end GoDl
